import Mathlib

/-!
Verification development for the obsidian TODO/TK outline plugin
(src/main.ts, src/view.ts).

The extractor `parseContent` (src/view.ts, lines 221-310) is embedded as a
pure function over `List Char`.  JavaScript strings become `List Char`,
`String.prototype.split('\n')` becomes `splitNl`, the regexes
`/\bTODO\b/gi` and `/\bTK\b/gi` become `findMatches` (all in-line offsets
whose surrounding characters satisfy the word-boundary conditions; a
whole-word match of these tokens can never begin strictly inside another
match, so the regex `exec` loop with `lastIndex` advancing yields exactly
the ascending list of all such offsets), `trim()` becomes `jsTrim`,
`split(/\s+/)` becomes `jsSplitWS`, and the `seenPositions` string-keyed
set (keys `lineIndex-startPos-KIND`, an injective encoding of the triple)
becomes `dedupEntries` over `EntryKey` triples.

The stateful view logic (`update`, `setupEditorChangeListener`, the
`setInterval` callback and the `setTimeout` debounce of src/view.ts,
lines 68-219) is embedded as explicit state passing over `ViewState`;
the Obsidian workspace resolution (lines 76-109) is an external
collaborator and enters `update` as the already-resolved
`Option MarkdownDoc`.
-/

/-- The whitespace class of JavaScript `\s` / `String.prototype.trim`,
restricted to the code points that can appear here (ASCII whitespace,
NBSP, BOM). -/
def isWS (c : Char) : Bool :=
  c = ' ' || c = '\t' || c = '\n' || c = '\r' || c.val = 11 || c.val = 12 ||
  c.val = 160 || c.val = 65279

/-- JavaScript regex word character `\w` = `[A-Za-z0-9_]`, the class used
by the `\b` anchors in `/\bTODO\b/gi` and `/\bTK\b/gi`. -/
def isWordChar (c : Char) : Bool :=
  c.isAlphanum || c = '_'

/-- `content.split('\n')` (src/view.ts line 224).  Always returns at least
one (possibly empty) line; the `'\n'` terminators are not part of any
line. -/
def splitNl : List Char → List (List Char)
  | [] => [[]]
  | c :: rest =>
    let r := splitNl rest
    if c = '\n' then [] :: r else (c :: r.headD []) :: r.tail

/-- Inverse of `splitNl`: re-joins lines with `'\n'`. -/
def joinNl : List (List Char) → List Char
  | [] => []
  | [l] => l
  | l :: ls => l ++ '\n' :: joinNl ls

/-- Single pass behind `jsSplitWS`.  `inSep` records whether the previous
character belonged to a separator run (so that a maximal `\s+` run causes
exactly one split), `cur` is the reversed current field. -/
def splitWSAux : Bool → List Char → List Char → List (List Char)
  | _, [], cur => [cur.reverse]
  | inSep, c :: rest, cur =>
    if isWS c then
      if inSep then splitWSAux true rest cur
      else cur.reverse :: splitWSAux true rest []
    else splitWSAux false rest (c :: cur)

/-- JavaScript `str.split(/\s+/)`: fields between maximal whitespace runs,
with an empty leading/trailing field when the string starts/ends with
whitespace, and `[""]` on the empty string. -/
def jsSplitWS (l : List Char) : List (List Char) :=
  splitWSAux false l []

/-- JavaScript `str.trim()`: strip leading and trailing whitespace. -/
def jsTrim (l : List Char) : List Char :=
  ((l.dropWhile isWS).reverse.dropWhile isWS).reverse

/-- Helper for `wordsOf`; `cur` is the reversed word being read. -/
def wordsAux : List Char → List Char → List (List Char)
  | [], cur => if cur.isEmpty then [] else [cur.reverse]
  | c :: rest, cur =>
    if isWS c then
      if cur.isEmpty then wordsAux rest [] else cur.reverse :: wordsAux rest []
    else wordsAux rest (c :: cur)

/-- The whitespace-delimited words of a string: its maximal runs of
non-whitespace characters, in order.  This is the specification-side
notion of "word"; the relation to the code's `trim`/`split` pipeline is
proved below. -/
def wordsOf (l : List Char) : List (List Char) :=
  wordsAux l []

/-- JavaScript `arr.join(' ')`. -/
def joinWords (ws : List (List Char)) : List Char :=
  List.intercalate [' '] ws

/-- The `type` field of a `TodoTkItem` (src/view.ts line 7). -/
inductive TodoTkType
  | TODO
  | TK
deriving DecidableEq

/-- `TodoTkItem` (src/view.ts lines 6-11): `position` is the character
position in the file. -/
structure TodoTkItem where
  type : TodoTkType
  text : List Char
  line : Nat
  position : Nat
deriving DecidableEq

instance : Inhabited TodoTkItem :=
  ⟨⟨TodoTkType.TODO, [], 0, 0⟩⟩

/-- The literal token of each kind. -/
def tokChars : TodoTkType → List Char
  | .TODO => ['T', 'O', 'D', 'O']
  | .TK => ['T', 'K']

/-- One case-insensitive whole-word match of `tok` at in-line offset `p`:
the next `tok.length` characters uppercase to `tok`, and the characters
immediately before and after the token (when they exist) are not word
characters — the semantics of `/\btok\b/gi` at offset `p`. -/
def tokenMatchAt (line tok : List Char) (p : Nat) : Bool :=
  (((line.drop p).take tok.length).map Char.toUpper == tok) &&
  (p == 0 || !isWordChar (line.getD (p - 1) ' ')) &&
  !isWordChar (line.getD (p + tok.length) ' ')

/-- All match offsets of `/\btok\b/gi` in `line`, ascending — the offsets
collected by the `while (regex.exec(line))` loops (src/view.ts lines
228-235 and 270-276). -/
def findMatches (line tok : List Char) : List Nat :=
  (List.range line.length).filter (fun p => tokenMatchAt line tok p)

/-- The absolute offset of the start of line `li`: the loop
`for (i in 0..lineIndex) position += lines[i].length + 1`
(src/view.ts lines 255-258 and 294-297). -/
def lineStartOffset (lines : List (List Char)) (li : Nat) : Nat :=
  ((lines.take li).map (fun l => l.length + 1)).sum

/-- The line at index `li` (empty when out of range). -/
def lineAt (lines : List (List Char)) (li : Nat) : List Char :=
  lines.getD li []

/-- Snippet of a TODO match (src/view.ts lines 250-252):
`line.substring(startPos + 4).trim().split(/\s+/).slice(0, 10).join(' ')`. -/
def todoText (line : List Char) (p : Nat) : List Char :=
  joinWords ((jsSplitWS (jsTrim (line.drop (p + 4)))).take 10)

/-- Snippet of a TK match (src/view.ts lines 288-291):
`line.substring(0, startPos).trim().split(/\s+/).slice(-3).join(' ')`. -/
def tkText (line : List Char) (p : Nat) : List Char :=
  let words := jsSplitWS (jsTrim (line.take p))
  joinWords (words.drop (words.length - 3))

/-- The item pushed for a match of kind `k` at in-line offset `p` of line
`li` (src/view.ts lines 261-266 and 300-305). -/
def itemOf (lines : List (List Char)) (li : Nat) (k : TodoTkType) (p : Nat) :
    TodoTkItem :=
  { type := k
    text :=
      match k with
      | .TODO => todoText (lineAt lines li) p
      | .TK => tkText (lineAt lines li) p
    line := li
    position := lineStartOffset lines li + p }

/-- The dedup key `lineIndex-startPos-KIND` of `seenPositions`
(src/view.ts lines 242, 280), as the triple it injectively encodes. -/
abbrev EntryKey := Nat × Nat × TodoTkType

/-- A candidate item together with its dedup key. -/
def entryOf (lines : List (List Char)) (li : Nat) (k : TodoTkType) (p : Nat) :
    EntryKey × TodoTkItem :=
  ((li, p, k), itemOf lines li k p)

/-- All candidates of one line, TODO matches first, then TK matches, each
group left to right (src/view.ts lines 226-307). -/
def lineEntries (lines : List (List Char)) (li : Nat) :
    List (EntryKey × TodoTkItem) :=
  (findMatches (lineAt lines li) (tokChars .TODO)).map (entryOf lines li .TODO) ++
  (findMatches (lineAt lines li) (tokChars .TK)).map (entryOf lines li .TK)

/-- All candidates of all lines, in line order. -/
def rawEntries (lines : List (List Char)) : List (EntryKey × TodoTkItem) :=
  ((List.range lines.length).map (fun li => lineEntries lines li)).flatten

/-- The `seenPositions` filter: emit each candidate whose key was not seen
before, first occurrence wins (src/view.ts lines 243-248, 282-286). -/
def dedupEntries : List EntryKey → List (EntryKey × TodoTkItem) → List TodoTkItem
  | _, [] => []
  | seen, e :: rest =>
    if e.1 ∈ seen then dedupEntries seen rest
    else e.2 :: dedupEntries (e.1 :: seen) rest

/-- `parseContent` (src/view.ts lines 221-310). -/
def parseContent (content : List Char) : List TodoTkItem :=
  dedupEntries [] (rawEntries (splitNl content))

/-- The change test of the poll callback (src/view.ts lines 196-199):
lengths differ, or the `JSON.stringify` images of the `(text, line)`
projections differ.  `JSON.stringify` of a list of `{text, line}` records
is injective in the projected sequences, so string inequality is embedded
as inequality of the projected lists. -/
def itemsChanged (currentItems items : List TodoTkItem) : Bool :=
  (currentItems.length != items.length) ||
  ((currentItems.map fun i => (i.text, i.line)) !=
    (items.map fun i => (i.text, i.line)))

/-- A resolved markdown view, reduced to the two capabilities the core
logic consumes: its path and its current text. -/
structure MarkdownDoc where
  path : List Char
  content : List Char
deriving DecidableEq

/-- What the view container shows after a render pass. -/
inductive Rendered
  | noFile
  | noItems
  | outline (items : List TodoTkItem)
deriving DecidableEq

/-- The mutable fields of `TodoTkView` (src/view.ts lines 13-19) that the
update/monitor logic reads and writes.  `pollInterval = some tracked`
models a live `setInterval` whose closure captured `trackedFile = tracked`;
`updateTimeout = some d` models a pending debounce `setTimeout` due at
absolute time `d`. -/
structure ViewState where
  items : List TodoTkItem
  currentFile : Option (List Char)
  currentView : Option MarkdownDoc
  pollInterval : Option (List Char)
  updateTimeout : Option Nat
  rendered : Rendered
deriving DecidableEq

/-- The debounce delay of `setTimeout(() => this.update(), 200)`
(src/view.ts line 208). -/
def debounceMs : Nat := 200

/-- The sampling period of `setInterval(..., 500)` (src/view.ts line 218). -/
def pollMs : Nat := 500

/-- `setupEditorChangeListener` (src/view.ts lines 167-219): store the view
reference, clear any existing interval and start a new one whose closure
tracks `mv.path`. -/
def setupEditorChangeListener (st : ViewState) (mv : MarkdownDoc) : ViewState :=
  { st with currentView := some mv, pollInterval := some mv.path }

/-- `update` (src/view.ts lines 68-165) given the already-resolved markdown
view.  Note the order of the source: `currentFile` is assigned the new path
(line 119) before the listener condition compares `markdownView.file?.path`
against it (line 125). -/
def update (st : ViewState) (resolved : Option MarkdownDoc) : ViewState :=
  match resolved with
  | none =>
    { st with rendered := .noFile, currentFile := none, currentView := none }
  | some mv =>
    let st1 := { st with
      currentFile := some mv.path
      currentView := some mv
      items := parseContent mv.content }
    let st2 :=
      if st1.pollInterval = none ∨ some mv.path ≠ st1.currentFile then
        setupEditorChangeListener st1 mv
      else st1
    { st2 with
      rendered := if st2.items = [] then .noItems else .outline st2.items }

/-- One firing of the poll interval callback (src/view.ts lines 179-218).
`viewValid` is the external liveness of `currentMarkdownView.editor` /
`.file`; `liveContent` is `editor.getValue()` at this tick; `now` is the
current time, used for the debounce deadline of
`clearTimeout(updateTimeout); updateTimeout = setTimeout(update, 200)`. -/
def pollTick (st : ViewState) (viewValid : Bool) (liveContent : List Char)
    (now : Nat) : ViewState :=
  match st.pollInterval with
  | none => st
  | some tracked =>
    match st.currentView with
    | none => { st with pollInterval := none, currentView := none }
    | some mv =>
      if viewValid = false then
        { st with pollInterval := none, currentView := none }
      else if mv.path = tracked ∧ st.currentFile = some tracked then
        if itemsChanged (parseContent liveContent) st.items then
          { st with updateTimeout := some (now + debounceMs) }
        else st
      else { st with pollInterval := none, currentView := none }

/-- Refreshes fired along a run of the single debounce slot: given the
pending deadline (if any) and the ascending times of successive
change detections, a pending refresh fires iff its deadline passes before
the next detection replaces it (`clearTimeout` + fresh `setTimeout`),
and a still-pending refresh at the end of the run fires. -/
def countRefreshes : Option Nat → List Nat → Nat
  | some _, [] => 1
  | none, [] => 0
  | slot, t :: ts =>
    (match slot with
      | some d => if d ≤ t then 1 else 0
      | none => 0) + countRefreshes (some (t + debounceMs)) ts


/-! ### Structure of `splitNl` and `joinNl` -/

theorem splitNl_ne_nil (s : List Char) : splitNl s ≠ [] := by
  cases s with
  | nil => simp [splitNl]
  | cons c rest =>
    simp only [splitNl]
    by_cases h : c = '\n' <;> simp [h]

theorem joinNl_cons {l : List Char} {ls : List (List Char)} (h : ls ≠ []) :
    joinNl (l :: ls) = l ++ '\n' :: joinNl ls := by
  cases ls with
  | nil => exact absurd rfl h
  | cons a as => rfl

theorem joinNl_splitNl (s : List Char) : joinNl (splitNl s) = s := by
  induction s with
  | nil => rfl
  | cons c rest ih =>
    simp only [splitNl]
    by_cases h : c = '\n'
    · subst h
      rw [if_pos rfl, joinNl_cons (splitNl_ne_nil rest), List.nil_append, ih]
    · rw [if_neg h]
      obtain ⟨l, ls, hsplit⟩ : ∃ l ls, splitNl rest = l :: ls := by
        cases hr : splitNl rest with
        | nil => exact absurd hr (splitNl_ne_nil rest)
        | cons a as => exact ⟨a, as, rfl⟩
      rw [hsplit] at ih ⊢
      cases ls with
      | nil =>
        show joinNl [c :: l] = c :: rest
        exact congrArg (fun x => c :: x) ih
      | cons b bs =>
        show joinNl ((c :: l) :: b :: bs) = c :: rest
        rw [joinNl_cons (by simp), List.cons_append]
        rw [joinNl_cons (by simp)] at ih
        rw [ih]

theorem lineStartOffset_zero (lines : List (List Char)) :
    lineStartOffset lines 0 = 0 := rfl

theorem lineStartOffset_cons_succ (l : List Char) (ls : List (List Char))
    (li : Nat) :
    lineStartOffset (l :: ls) (li + 1) = l.length + 1 + lineStartOffset ls li := by
  simp [lineStartOffset, List.take_succ_cons, Nat.add_comm]

theorem drop_eq_lineAt_cons {lines : List (List Char)} {li : Nat}
    (h : li < lines.length) :
    lines.drop li = lineAt lines li :: lines.drop (li + 1) := by
  rw [List.drop_eq_getElem_cons h]
  congr 1
  simp [lineAt, List.getD_eq_getElem?_getD, List.getElem?_eq_getElem h]

theorem joinNl_drop_lineStart :
    ∀ (lines : List (List Char)) (li : Nat), li < lines.length →
      (joinNl lines).drop (lineStartOffset lines li) = joinNl (lines.drop li)
  | _, 0, _ => by simp [lineStartOffset_zero]
  | [], li + 1, h => by simp at h
  | l :: ls, li + 1, h => by
    have hls : li < ls.length := Nat.lt_of_succ_lt_succ (by simpa using h)
    have hne : ls ≠ [] := by
      intro he
      rw [he] at hls
      simp at hls
    rw [lineStartOffset_cons_succ, joinNl_cons hne, List.drop_succ_cons,
      show l ++ '\n' :: joinNl ls = (l ++ ['\n']) ++ joinNl ls by simp,
      show l.length + 1 + lineStartOffset ls li
          = (l ++ ['\n']).length + lineStartOffset ls li by simp,
      List.drop_append]
    exact joinNl_drop_lineStart ls li hls

/-! ### Facts extracted from a `tokenMatchAt` -/

theorem tokChars_ne_nil (k : TodoTkType) : tokChars k ≠ [] := by
  cases k <;> simp [tokChars]

theorem tokenMatchAt_take {line tok : List Char} {p : Nat}
    (h : tokenMatchAt line tok p = true) :
    ((line.drop p).take tok.length).map Char.toUpper = tok := by
  simp only [tokenMatchAt, Bool.and_eq_true, beq_iff_eq] at h
  exact h.1.1

theorem tokenMatchAt_le_length {line tok : List Char} {p : Nat}
    (htok : tok ≠ []) (h : tokenMatchAt line tok p = true) :
    p + tok.length ≤ line.length := by
  have h1 := tokenMatchAt_take h
  have hlen : ((line.drop p).take tok.length).length = tok.length := by
    have := congrArg List.length h1
    simpa using this
  rw [List.length_take, List.length_drop] at hlen
  have hmin : tok.length ≤ line.length - p := by
    have := Nat.min_le_right tok.length (line.length - p)
    rw [hlen] at this
    exact this
  have hpos : 0 < tok.length := List.length_pos.mpr htok
  omega

theorem token_at_absolute {lines : List (List Char)} {li p : Nat}
    {tok : List Char} (htok : tok ≠ []) (hli : li < lines.length)
    (hm : tokenMatchAt (lineAt lines li) tok p = true) :
    (((joinNl lines).drop (lineStartOffset lines li + p)).take tok.length).map
      Char.toUpper = tok := by
  have hple := tokenMatchAt_le_length htok hm
  rw [← List.drop_drop, joinNl_drop_lineStart lines li hli,
    drop_eq_lineAt_cons hli]
  cases hrest : lines.drop (li + 1) with
  | nil =>
    show (((joinNl [lineAt lines li]).drop p).take tok.length).map
        Char.toUpper = tok
    exact tokenMatchAt_take hm
  | cons r rs =>
    rw [joinNl_cons (by simp), List.drop_append_eq_append_drop,
      List.take_append_eq_append_take]
    have h0 : tok.length - ((lineAt lines li).drop p).length = 0 := by
      rw [List.length_drop]
      omega
    rw [h0, List.take_zero, List.append_nil]
    exact tokenMatchAt_take hm

/-! ### The candidate list is strictly ordered, so the dedup set never
fires and `parseContent` is the plain candidate list -/

/-- Scan phase of a kind within one line: all TODO matches are emitted
before all TK matches. -/
def phaseIdx : TodoTkType → Nat
  | .TODO => 0
  | .TK => 1

/-- Strict emission order on dedup keys: by line, then by phase
(TODO before TK), then by in-line offset. -/
def keyLt (a b : EntryKey) : Prop :=
  a.1 < b.1 ∨ (a.1 = b.1 ∧ (phaseIdx a.2.2 < phaseIdx b.2.2 ∨
    (a.2.2 = b.2.2 ∧ a.2.1 < b.2.1)))

theorem keyLt_ne {a b : EntryKey} (h : keyLt a b) : a ≠ b := by
  rintro rfl
  rcases h with h | ⟨-, h | ⟨-, h⟩⟩ <;> exact absurd h (lt_irrefl _)

theorem mem_findMatches {line tok : List Char} {p : Nat} :
    p ∈ findMatches line tok ↔
      p < line.length ∧ tokenMatchAt line tok p = true := by
  rw [findMatches, List.mem_filter, List.mem_range]

theorem mem_lineEntries {lines : List (List Char)} {li : Nat}
    {e : EntryKey × TodoTkItem} (h : e ∈ lineEntries lines li) :
    ∃ k p, tokenMatchAt (lineAt lines li) (tokChars k) p = true ∧
      e = entryOf lines li k p := by
  rcases List.mem_append.mp h with h' | h' <;>
    rcases List.mem_map.mp h' with ⟨p, hp, rfl⟩
  · exact ⟨.TODO, p, (mem_findMatches.mp hp).2, rfl⟩
  · exact ⟨.TK, p, (mem_findMatches.mp hp).2, rfl⟩

theorem fst_entryOf (lines : List (List Char)) (li : Nat) (k : TodoTkType)
    (p : Nat) : (entryOf lines li k p).1 = (li, p, k) := rfl

theorem pairwise_keyLt_rawEntries (lines : List (List Char)) :
    (rawEntries lines).Pairwise (fun e1 e2 => keyLt e1.1 e2.1) := by
  rw [rawEntries, List.pairwise_flatten]
  constructor
  · intro l hl
    rcases List.mem_map.mp hl with ⟨li, _, rfl⟩
    rw [lineEntries, List.pairwise_append]
    refine ⟨?_, ?_, ?_⟩
    · rw [List.pairwise_map]
      refine List.Pairwise.imp ?_ ((List.pairwise_lt_range _).filter _)
      intro a b hab
      exact Or.inr ⟨rfl, Or.inr ⟨rfl, hab⟩⟩
    · rw [List.pairwise_map]
      refine List.Pairwise.imp ?_ ((List.pairwise_lt_range _).filter _)
      intro a b hab
      exact Or.inr ⟨rfl, Or.inr ⟨rfl, hab⟩⟩
    · intro x hx y hy
      rcases List.mem_map.mp hx with ⟨p, _, rfl⟩
      rcases List.mem_map.mp hy with ⟨q, _, rfl⟩
      exact Or.inr ⟨rfl, Or.inl (by simp [fst_entryOf, phaseIdx])⟩
  · rw [List.pairwise_map]
    refine List.Pairwise.imp ?_ (List.pairwise_lt_range _)
    intro li lj hlt x hx y hy
    rcases mem_lineEntries hx with ⟨kx, px, -, rfl⟩
    rcases mem_lineEntries hy with ⟨ky, py, -, rfl⟩
    exact Or.inl (by simpa [fst_entryOf] using hlt)

theorem nodup_keys_rawEntries (lines : List (List Char)) :
    ((rawEntries lines).map Prod.fst).Nodup := by
  show ((rawEntries lines).map Prod.fst).Pairwise (fun a b => a ≠ b)
  rw [List.pairwise_map]
  exact (pairwise_keyLt_rawEntries lines).imp (fun h => keyLt_ne h)

theorem dedupEntries_eq_map :
    ∀ (entries : List (EntryKey × TodoTkItem)) (seen : List EntryKey),
      (entries.map Prod.fst).Nodup →
      (∀ e ∈ entries, e.1 ∉ seen) →
      dedupEntries seen entries = entries.map Prod.snd
  | [], _, _, _ => rfl
  | e :: rest, seen, hnd, hseen => by
    rw [dedupEntries, if_neg (hseen e (by simp)), List.map_cons]
    congr 1
    rw [List.map_cons, List.nodup_cons] at hnd
    apply dedupEntries_eq_map rest (e.1 :: seen) hnd.2
    intro e' he' hmem
    rcases List.mem_cons.mp hmem with h1 | h1
    · exact hnd.1 (h1 ▸ List.mem_map_of_mem Prod.fst he')
    · exact hseen e' (List.mem_cons_of_mem e he') h1

theorem parseContent_eq_map (content : List Char) :
    parseContent content = (rawEntries (splitNl content)).map Prod.snd :=
  dedupEntries_eq_map _ [] (nodup_keys_rawEntries _) (by intro e _; simp)

theorem mem_parseContent_iff {content : List Char} {it : TodoTkItem} :
    it ∈ parseContent content ↔
      ∃ li p k, li < (splitNl content).length ∧
        tokenMatchAt (lineAt (splitNl content) li) (tokChars k) p = true ∧
        it = itemOf (splitNl content) li k p := by
  rw [parseContent_eq_map]
  constructor
  · intro h
    rcases List.mem_map.mp h with ⟨e, he, rfl⟩
    rw [rawEntries] at he
    rcases List.mem_flatten.mp he with ⟨l, hl, hel⟩
    rcases List.mem_map.mp hl with ⟨li, hli, rfl⟩
    rcases mem_lineEntries hel with ⟨k, p, hm, rfl⟩
    exact ⟨li, p, k, List.mem_range.mp hli, hm, rfl⟩
  · rintro ⟨li, p, k, hli, hm, rfl⟩
    have hp : p ∈ findMatches (lineAt (splitNl content) li) (tokChars k) := by
      rw [mem_findMatches]
      have hle := tokenMatchAt_le_length (tokChars_ne_nil k) hm
      have hpos : 0 < (tokChars k).length :=
        List.length_pos.mpr (tokChars_ne_nil k)
      exact ⟨by omega, hm⟩
    have hent : entryOf (splitNl content) li k p ∈
        lineEntries (splitNl content) li := by
      rw [lineEntries, List.mem_append]
      cases k with
      | TODO => exact Or.inl (List.mem_map_of_mem _ hp)
      | TK => exact Or.inr (List.mem_map_of_mem _ hp)
    refine List.mem_map.mpr ⟨entryOf (splitNl content) li k p, ?_, rfl⟩
    rw [rawEntries]
    exact List.mem_flatten_of_mem
      (List.mem_map_of_mem _ (List.mem_range.mpr hli)) hent

/-! ### `trim()` + `split(/\s+/)` versus whitespace-delimited words -/

theorem splitWSAux_nil (inSep : Bool) (cur : List Char) :
    splitWSAux inSep [] cur = [cur.reverse] := rfl

theorem splitWSAux_false_cons (c : Char) (rest cur : List Char) :
    splitWSAux false (c :: rest) cur =
      if isWS c = true then cur.reverse :: splitWSAux true rest []
      else splitWSAux false rest (c :: cur) := by
  simp only [splitWSAux]
  by_cases hc : isWS c = true
  · rw [if_pos hc, if_pos hc, if_neg (by simp)]
  · rw [if_neg hc, if_neg hc]

theorem splitWSAux_true_cons (c : Char) (rest : List Char) :
    splitWSAux true (c :: rest) [] =
      if isWS c = true then splitWSAux true rest []
      else splitWSAux false rest [c] := by
  simp only [splitWSAux]
  by_cases hc : isWS c = true
  · rw [if_pos hc, if_pos hc, if_pos trivial]
  · rw [if_neg hc, if_neg hc]

theorem wordsAux_nil (cur : List Char) :
    wordsAux [] cur = if cur.isEmpty = true then [] else [cur.reverse] := rfl

theorem wordsAux_cons (c : Char) (rest cur : List Char) :
    wordsAux (c :: rest) cur =
      if isWS c = true then
        (if cur.isEmpty = true then wordsAux rest []
         else cur.reverse :: wordsAux rest [])
      else wordsAux rest (c :: cur) := rfl

/-- How the scan treats the last character: `lastWS l` is whether `l` ends
in whitespace. -/
def lastWS (l : List Char) : Bool :=
  (l.getLast?.map isWS).getD false

theorem lastWS_singleton (c : Char) : lastWS [c] = isWS c := by
  simp [lastWS]

theorem lastWS_cons_cons (a b : Char) (l : List Char) :
    lastWS (a :: b :: l) = lastWS (b :: l) := by
  simp [lastWS, List.getLast?_cons_cons]

theorem wordsAux_all_ws :
    ∀ (x cur : List Char), (∀ c ∈ x, isWS c = true) →
      wordsAux x cur = if cur.isEmpty = true then [] else [cur.reverse]
  | [], _, _ => rfl
  | c :: rest, cur, h => by
    have hc : isWS c = true := h c (by simp)
    rw [wordsAux_cons, if_pos hc,
      wordsAux_all_ws rest [] (fun d hd => h d (List.mem_cons_of_mem _ hd))]
    by_cases he : cur.isEmpty = true
    · simp [he]
    · simp [he]

theorem wordsAux_append_ws :
    ∀ (x ws cur : List Char), (∀ c ∈ ws, isWS c = true) →
      wordsAux (x ++ ws) cur = wordsAux x cur
  | [], ws, cur, h => by
    rw [List.nil_append, wordsAux_all_ws ws cur h]
    rfl
  | c :: x, ws, cur, h => by
    rw [List.cons_append, wordsAux_cons, wordsAux_cons]
    by_cases hc : isWS c = true
    · rw [if_pos hc, if_pos hc]
      by_cases he : cur.isEmpty = true
      · rw [if_pos he, if_pos he, wordsAux_append_ws x ws [] h]
      · rw [if_neg he, if_neg he, wordsAux_append_ws x ws [] h]
    · rw [if_neg hc, if_neg hc, wordsAux_append_ws x ws (c :: cur) h]

theorem wordsAux_dropWhile :
    ∀ (x : List Char), wordsAux (x.dropWhile isWS) [] = wordsAux x []
  | [] => rfl
  | c :: rest => by
    by_cases hc : isWS c = true
    · rw [List.dropWhile_cons_of_pos hc, wordsAux_dropWhile rest,
        wordsAux_cons, if_pos hc]
      simp
    · rw [List.dropWhile_cons_of_neg (by simp [hc])]

theorem splitWSAux_eq_wordsAux (l : List Char) :
    (∀ cur : List Char,
      (cur = [] → ∀ c, l.head? = some c → isWS c = false) →
      (l = [] → cur ≠ []) → lastWS l = false →
      splitWSAux false l cur = wordsAux l cur) ∧
    (l ≠ [] → lastWS l = false → splitWSAux true l [] = wordsAux l []) := by
  induction l with
  | nil =>
    refine ⟨fun cur _ hne _ => ?_, fun hne _ => absurd rfl hne⟩
    have hcur : cur ≠ [] := hne rfl
    rw [splitWSAux_nil, wordsAux_nil, if_neg (by simpa using hcur)]
  | cons c rest ih =>
    have hrest_of_ws : isWS c = true → lastWS (c :: rest) = false →
        rest ≠ [] ∧ lastWS rest = false := by
      intro hc hlast
      cases rest with
      | nil =>
        rw [lastWS_singleton] at hlast
        exact absurd hc (by simp [hlast])
      | cons r rs =>
        rw [lastWS_cons_cons] at hlast
        exact ⟨by simp, hlast⟩
    have hlast_tail : lastWS (c :: rest) = false → lastWS rest = false := by
      intro hlast
      cases rest with
      | nil => rfl
      | cons r rs =>
        rw [lastWS_cons_cons] at hlast
        exact hlast
    constructor
    · intro cur hhead hne hlast
      rw [splitWSAux_false_cons, wordsAux_cons]
      by_cases hc : isWS c = true
      · have hcur : cur ≠ [] := by
          intro h0
          have := hhead h0 c (by rw [List.head?_cons])
          simp [hc] at this
        rw [if_pos hc, if_pos hc, if_neg (by simpa using hcur)]
        obtain ⟨hrne, hrlast⟩ := hrest_of_ws hc hlast
        rw [(ih.2) hrne hrlast]
      · rw [if_neg hc, if_neg hc]
        exact (ih.1) (c :: cur)
          (fun h0 => absurd h0 (List.cons_ne_nil c cur))
          (fun _ => List.cons_ne_nil c cur)
          (hlast_tail hlast)
    · intro _ hlast
      rw [splitWSAux_true_cons, wordsAux_cons]
      by_cases hc : isWS c = true
      · rw [if_pos hc, if_pos hc, if_pos (by simp)]
        obtain ⟨hrne, hrlast⟩ := hrest_of_ws hc hlast
        exact (ih.2) hrne hrlast
      · rw [if_neg hc, if_neg hc]
        exact (ih.1) [c]
          (fun h0 => absurd h0 (List.cons_ne_nil c []))
          (fun _ => List.cons_ne_nil c [])
          (hlast_tail hlast)

/-- The right-trim half of `jsTrim`. -/
def trimRight (y : List Char) : List Char :=
  (y.reverse.dropWhile isWS).reverse

theorem jsTrim_eq_trimRight (x : List Char) :
    jsTrim x = trimRight (x.dropWhile isWS) := rfl

theorem trimRight_decomp (y : List Char) :
    ∃ ws, y = trimRight y ++ ws ∧ ∀ c ∈ ws, isWS c = true := by
  refine ⟨(y.reverse.takeWhile isWS).reverse, ?_, ?_⟩
  · conv_lhs => rw [← List.reverse_reverse y,
      ← List.takeWhile_append_dropWhile (p := isWS) (l := y.reverse)]
    rw [List.reverse_append]
    rfl
  · intro c hc
    rw [List.mem_reverse] at hc
    exact List.mem_takeWhile_imp hc

theorem dropWhile_head_not {p : Char → Bool} :
    ∀ (l : List Char) {c : Char} {t : List Char},
      l.dropWhile p = c :: t → p c = false
  | [], _, _, h => by simp at h
  | a :: rest, c, t, h => by
    by_cases ha : p a = true
    · rw [List.dropWhile_cons_of_pos ha] at h
      exact dropWhile_head_not rest h
    · rw [List.dropWhile_cons_of_neg (by simp [ha])] at h
      cases h
      simpa using ha

theorem lastWS_trimRight (y : List Char) : lastWS (trimRight y) = false := by
  rw [trimRight, lastWS, List.getLast?_reverse]
  cases hz : y.reverse.dropWhile isWS with
  | nil => rfl
  | cons c t =>
    simp only [List.head?_cons, Option.map_some', Option.getD_some]
    exact dropWhile_head_not y.reverse hz

theorem wordsAux_ne_nil :
    ∀ (l cur : List Char), cur ≠ [] → wordsAux l cur ≠ []
  | [], cur, h => by
    rw [wordsAux_nil, if_neg (by simpa using h)]
    simp
  | c :: rest, cur, h => by
    rw [wordsAux_cons]
    by_cases hc : isWS c = true
    · rw [if_pos hc, if_neg (by simpa using h)]
      simp
    · rw [if_neg hc]
      exact wordsAux_ne_nil rest (c :: cur) (by simp)

theorem wordsOf_cons_ne_nil {c : Char} {t : List Char} (hc : isWS c = false) :
    wordsOf (c :: t) ≠ [] := by
  rw [wordsOf, wordsAux_cons, if_neg (by simp [hc])]
  exact wordsAux_ne_nil t [c] (by simp)

theorem wordsOf_jsTrim (x : List Char) : wordsOf (jsTrim x) = wordsOf x := by
  obtain ⟨ws, hdecomp, hws⟩ := trimRight_decomp (x.dropWhile isWS)
  rw [jsTrim_eq_trimRight]
  calc wordsOf (trimRight (x.dropWhile isWS))
      = wordsOf (trimRight (x.dropWhile isWS) ++ ws) :=
        (wordsAux_append_ws _ ws [] hws).symm
    _ = wordsOf (x.dropWhile isWS) := by rw [← hdecomp]
    _ = wordsOf x := wordsAux_dropWhile x

/-- The code's `trim().split(/\s+/)` pipeline, in terms of
whitespace-delimited words: it yields exactly the words, except that a
string with no words at all yields the single empty field `[""]`. -/
theorem jsSplitWS_jsTrim_eq (x : List Char) :
    jsSplitWS (jsTrim x) = if wordsOf x = [] then [[]] else wordsOf x := by
  cases ht : jsTrim x with
  | nil =>
    have hw : wordsOf x = [] := by
      rw [← wordsOf_jsTrim x, ht]
      rfl
    rw [if_pos hw]
    rfl
  | cons c t =>
    have hc : isWS c = false := by
      have ht' := ht
      rw [jsTrim_eq_trimRight] at ht'
      obtain ⟨ws, hdecomp, -⟩ := trimRight_decomp (x.dropWhile isWS)
      rw [ht', List.cons_append] at hdecomp
      exact dropWhile_head_not x hdecomp
    have hlast : lastWS (c :: t) = false := by
      have ht' := ht
      rw [jsTrim_eq_trimRight] at ht'
      rw [← ht']
      exact lastWS_trimRight _
    have hsplit : splitWSAux false (c :: t) [] = wordsAux (c :: t) [] :=
      (splitWSAux_eq_wordsAux (c :: t)).1 []
        (fun _ c' hc' => by
          rw [List.head?_cons] at hc'
          cases hc'
          exact hc)
        (fun h => absurd h (List.cons_ne_nil c t))
        hlast
    have hw : wordsOf x ≠ [] := by
      rw [← wordsOf_jsTrim x, ht]
      exact wordsOf_cons_ne_nil hc
    rw [if_neg hw, ← wordsOf_jsTrim x, ht]
    exact hsplit

/-- `arr.slice(-n)` on lists: the last `n` elements (all of them when
fewer). -/
def lastN (n : Nat) (ws : List (List Char)) : List (List Char) :=
  ws.drop (ws.length - n)

/-- The snippet of a TODO match equals the first up-to-10
whitespace-delimited words of the line remainder after the token, joined
by single spaces. -/
theorem todoText_eq_words (line : List Char) (p : Nat) :
    todoText line p = joinWords ((wordsOf (line.drop (p + 4))).take 10) := by
  rw [todoText, jsSplitWS_jsTrim_eq]
  by_cases h : wordsOf (line.drop (p + 4)) = []
  · rw [if_pos h, h]
    rfl
  · rw [if_neg h]

/-- The snippet of a TK match equals the last up-to-3 whitespace-delimited
words of the line segment before the token, joined by single spaces. -/
theorem tkText_eq_words (line : List Char) (p : Nat) :
    tkText line p = joinWords (lastN 3 (wordsOf (line.take p))) := by
  show joinWords ((jsSplitWS (jsTrim (line.take p))).drop
      ((jsSplitWS (jsTrim (line.take p))).length - 3)) =
    joinWords (lastN 3 (wordsOf (line.take p)))
  rw [jsSplitWS_jsTrim_eq]
  by_cases h : wordsOf (line.take p) = []
  · rw [if_pos h, h]
    rfl
  · rw [if_neg h]
    rfl

/-! ### Shape of raw entries -/

theorem rawEntries_shape {lines : List (List Char)} {e : EntryKey × TodoTkItem}
    (h : e ∈ rawEntries lines) :
    e.2.line = e.1.1 ∧ e.2.type = e.1.2.2 ∧
      e.2.position = lineStartOffset lines e.1.1 + e.1.2.1 := by
  rw [rawEntries] at h
  rcases List.mem_flatten.mp h with ⟨l, hl, hel⟩
  rcases List.mem_map.mp hl with ⟨li, -, rfl⟩
  rcases mem_lineEntries hel with ⟨k, p, -, rfl⟩
  exact ⟨rfl, rfl, rfl⟩

theorem phaseIdx_lt {a b : TodoTkType} (h : phaseIdx a < phaseIdx b) :
    a = .TODO ∧ b = .TK := by
  cases a <;> cases b <;> simp_all [phaseIdx]

/-! ### Claims about the extractor -/

/-- C1: every item emitted by `parseContent` has a `position` computed as
the sum of `length + 1` over all lines before its line plus the in-line
match offset, and that position indexes exactly the first character of the
matched token in the original string (the `tokChars it.type |>.length`
characters of the input starting at `it.position` uppercase to the
token). -/
theorem c1_absolute_offset (s : List Char) (it : TodoTkItem)
    (h : it ∈ parseContent s) :
    ∃ p, tokenMatchAt (lineAt (splitNl s) it.line) (tokChars it.type) p = true ∧
      it.position = lineStartOffset (splitNl s) it.line + p ∧
      ((s.drop it.position).take (tokChars it.type).length).map Char.toUpper =
        tokChars it.type := by
  rcases mem_parseContent_iff.mp h with ⟨li, p, k, hli, hm, rfl⟩
  refine ⟨p, hm, rfl, ?_⟩
  have hthis := token_at_absolute (tokChars_ne_nil k) hli hm
  rw [joinNl_splitNl s] at hthis
  exact hthis

/-- C1 witness: the TODO on the second line of "x\nTODO y" sits at absolute
offset 2. -/
theorem c1_absolute_offset_witness :
    ∃ p, tokenMatchAt (lineAt (splitNl "x\nTODO y".toList) 1)
        (tokChars TodoTkType.TODO) p = true ∧
      (2 : Nat) = lineStartOffset (splitNl "x\nTODO y".toList) 1 + p ∧
      ((("x\nTODO y".toList).drop 2).take
        (tokChars TodoTkType.TODO).length).map Char.toUpper =
        tokChars TodoTkType.TODO :=
  c1_absolute_offset "x\nTODO y".toList
    ⟨TodoTkType.TODO, "y".toList, 1, 2⟩ (by decide)

/-- C2 counterexample: in "TODO_" the token occurrence at offset 0 is not
adjacent to any alphanumeric character (the only adjacent character is the
underscore, which is not alphanumeric), yet `parseContent` emits no item,
because the regex word boundary `\b` also treats the underscore as a word
character. -/
theorem c2_counterexample :
    (("TODO_".toList.take 4).map Char.toUpper = tokChars TodoTkType.TODO) ∧
    ("TODO_".toList.getD 4 ' ').isAlphanum = false ∧
    parseContent "TODO_".toList = [] := by decide

/-- C2 (amended): an item of kind `k` on line `li` at in-line offset `p` is
emitted iff `li` is a valid line index and the token matches there
case-insensitively with word-character boundaries, where a word character
is an alphanumeric character or an underscore (`\w`); in particular
"TODOLIST" yields zero items, "a TODO b" yields one, and the case variants
"todo"/"Todo" match. -/
theorem c2_word_boundary :
    (∀ (s : List Char) (li p : Nat) (k : TodoTkType),
      (∃ it, it ∈ parseContent s ∧ it.type = k ∧ it.line = li ∧
        it.position = lineStartOffset (splitNl s) li + p) ↔
      (li < (splitNl s).length ∧
        tokenMatchAt (lineAt (splitNl s) li) (tokChars k) p = true)) ∧
    parseContent "TODOLIST".toList = [] ∧
    (parseContent "a TODO b".toList).length = 1 ∧
    (parseContent "todo".toList).length = 1 ∧
    (parseContent "Todo".toList).length = 1 := by
  refine ⟨?_, by decide, by decide, by decide, by decide⟩
  intro s li p k
  constructor
  · rintro ⟨it, hmem, htype, hline, hpos⟩
    rcases mem_parseContent_iff.mp hmem with ⟨li', p', k', hli', hm', rfl⟩
    have hk : k' = k := htype
    have hl : li' = li := hline
    subst hk
    subst hl
    have hpos' : lineStartOffset (splitNl s) li' + p'
        = lineStartOffset (splitNl s) li' + p := hpos
    have hp : p' = p := Nat.add_left_cancel hpos'
    subst hp
    exact ⟨hli', hm'⟩
  · rintro ⟨hli, hm⟩
    exact ⟨itemOf (splitNl s) li k p,
      mem_parseContent_iff.mpr ⟨li, p, k, hli, hm, rfl⟩, rfl, rfl, rfl⟩

/-- C2 witness: the whole-word TODO of "a TODO b" at in-line offset 2. -/
theorem c2_word_boundary_witness :
    ∃ it, it ∈ parseContent "a TODO b".toList ∧
      it.type = TodoTkType.TODO ∧ it.line = 0 ∧
      it.position = lineStartOffset (splitNl "a TODO b".toList) 0 + 2 :=
  (c2_word_boundary.1 "a TODO b".toList 0 2 TodoTkType.TODO).mpr (by decide)

/-- C3: every emitted item's snippet: for TODO kind it is the first
up-to-10 whitespace-delimited words of the line remainder after the
4-character token; for TK kind it is the last up-to-3 whitespace-delimited
words of the line segment before the token; joined by single spaces (hence
trimmed), clamping when fewer words exist. -/
theorem c3_snippets (s : List Char) (it : TodoTkItem)
    (h : it ∈ parseContent s) :
    ∃ p, tokenMatchAt (lineAt (splitNl s) it.line) (tokChars it.type) p = true ∧
      it.position = lineStartOffset (splitNl s) it.line + p ∧
      (it.type = .TODO →
        it.text = joinWords
          ((wordsOf ((lineAt (splitNl s) it.line).drop (p + 4))).take 10)) ∧
      (it.type = .TK →
        it.text = joinWords
          (lastN 3 (wordsOf ((lineAt (splitNl s) it.line).take p)))) := by
  rcases mem_parseContent_iff.mp h with ⟨li, p, k, hli, hm, rfl⟩
  cases k with
  | TODO =>
    exact ⟨p, hm, rfl, fun _ => todoText_eq_words _ p,
      fun hk =>
        absurd (show TodoTkType.TODO = TodoTkType.TK from hk) (by decide)⟩
  | TK =>
    exact ⟨p, hm, rfl,
      fun hk =>
        absurd (show TodoTkType.TK = TodoTkType.TODO from hk) (by decide),
      fun _ => tkText_eq_words _ p⟩

/-- C3 witness: "a b c d TK" keeps only the last three words "b c d". -/
theorem c3_snippets_witness :
    ∃ p, tokenMatchAt (lineAt (splitNl "a b c d TK".toList) 0)
        (tokChars TodoTkType.TK) p = true ∧
      (8 : Nat) = lineStartOffset (splitNl "a b c d TK".toList) 0 + p ∧
      (TodoTkType.TK = TodoTkType.TODO →
        "b c d".toList = joinWords
          ((wordsOf ((lineAt (splitNl "a b c d TK".toList) 0).drop
            (p + 4))).take 10)) ∧
      (TodoTkType.TK = TodoTkType.TK →
        "b c d".toList = joinWords
          (lastN 3 (wordsOf ((lineAt (splitNl "a b c d TK".toList) 0).take
            p)))) :=
  c3_snippets "a b c d TK".toList
    ⟨TodoTkType.TK, "b c d".toList, 0, 8⟩ (by decide)

/-- The emission order stated by the spec: ascending line index; within one
line, TODO items before TK items, and same-kind items left to right. -/
def itemOrder (a b : TodoTkItem) : Prop :=
  a.line < b.line ∨ (a.line = b.line ∧
    ((a.type = .TODO ∧ b.type = .TK) ∨
      (a.type = b.type ∧ a.position < b.position)))

/-- C4: `parseContent` emits items in ascending line order; within one
line all TODO occurrences (left to right) precede all TK occurrences (left
to right). -/
theorem c4_emission_order (s : List Char) :
    (parseContent s).Pairwise itemOrder := by
  rw [parseContent_eq_map, List.pairwise_map]
  refine (pairwise_keyLt_rawEntries (splitNl s)).imp_of_mem ?_
  intro e1 e2 h1 h2 hlt
  obtain ⟨hl1, ht1, hp1⟩ := rawEntries_shape h1
  obtain ⟨hl2, ht2, hp2⟩ := rawEntries_shape h2
  rcases hlt with h | ⟨heq, h | ⟨hkind, hpos⟩⟩
  · exact Or.inl (by rw [hl1, hl2]; exact h)
  · refine Or.inr ⟨by rw [hl1, hl2, heq], Or.inl ?_⟩
    have hph := phaseIdx_lt h
    rw [ht1, ht2]
    exact hph
  · refine Or.inr ⟨by rw [hl1, hl2, heq],
      Or.inr ⟨by rw [ht1, ht2, hkind], ?_⟩⟩
    rw [hp1, hp2, heq]
    exact Nat.add_lt_add_left hpos _

/-- C5: no two items of one extraction share the triple of line index,
in-line offset (position minus the line's start offset) and kind — the
position-keyed dedup set guarantees it. -/
theorem c5_no_duplicate_triples (s : List Char) :
    ((parseContent s).map (fun it =>
      (it.line, it.position - lineStartOffset (splitNl s) it.line,
        it.type))).Nodup := by
  rw [parseContent_eq_map, List.map_map]
  show (List.map _ (rawEntries (splitNl s))).Pairwise (fun a b => a ≠ b)
  rw [List.pairwise_map]
  refine (pairwise_keyLt_rawEntries (splitNl s)).imp_of_mem ?_
  intro e1 e2 h1 h2 hlt
  obtain ⟨hl1, ht1, hp1⟩ := rawEntries_shape h1
  obtain ⟨hl2, ht2, hp2⟩ := rawEntries_shape h2
  have tr1 : (e1.2.line, e1.2.position - lineStartOffset (splitNl s) e1.2.line,
      e1.2.type) = (e1.1.1, e1.1.2.1, e1.1.2.2) := by
    rw [hl1, ht1, hp1]
    simp [Nat.add_sub_cancel_left]
  have tr2 : (e2.2.line, e2.2.position - lineStartOffset (splitNl s) e2.2.line,
      e2.2.type) = (e2.1.1, e2.1.2.1, e2.1.2.2) := by
    rw [hl2, ht2, hp2]
    simp [Nat.add_sub_cancel_left]
  show (e1.2.line, e1.2.position - lineStartOffset (splitNl s) e1.2.line,
      e1.2.type) ≠ (e2.2.line, e2.2.position -
      lineStartOffset (splitNl s) e2.2.line, e2.2.type)
  rw [tr1, tr2]
  exact keyLt_ne hlt

/-- The side of the line a snippet is read from. -/
def snippetSource : TodoTkType → List Char → Nat → List Char
  | .TODO, line, p => line.drop (p + 4)
  | .TK, line, p => line.take p

/-- C10: a token occurrence whose snippet side holds no words still
produces an item, with empty snippet text — a match is never suppressed
for lack of snippet text. -/
theorem c10_empty_snippet (s : List Char) (li p : Nat) (k : TodoTkType)
    (hli : li < (splitNl s).length)
    (hm : tokenMatchAt (lineAt (splitNl s) li) (tokChars k) p = true)
    (hw : wordsOf (snippetSource k (lineAt (splitNl s) li) p) = []) :
    ∃ it, it ∈ parseContent s ∧ it.type = k ∧ it.line = li ∧
      it.position = lineStartOffset (splitNl s) li + p ∧ it.text = [] := by
  refine ⟨itemOf (splitNl s) li k p,
    mem_parseContent_iff.mpr ⟨li, p, k, hli, hm, rfl⟩, rfl, rfl, rfl, ?_⟩
  cases k with
  | TODO =>
    show todoText (lineAt (splitNl s) li) p = []
    rw [todoText_eq_words,
      show wordsOf ((lineAt (splitNl s) li).drop (p + 4)) = [] from hw]
    rfl
  | TK =>
    show tkText (lineAt (splitNl s) li) p = []
    rw [tkText_eq_words,
      show wordsOf ((lineAt (splitNl s) li).take p) = [] from hw]
    rfl

/-- C10 witness: the line consisting solely of "TODO" yields one item with
empty snippet. -/
theorem c10_empty_snippet_witness :
    ∃ it, it ∈ parseContent "TODO".toList ∧ it.type = TodoTkType.TODO ∧
      it.line = 0 ∧
      it.position = lineStartOffset (splitNl "TODO".toList) 0 + 0 ∧
      it.text = [] :=
  c10_empty_snippet "TODO".toList 0 0 TodoTkType.TODO (by decide) (by decide)
    (by decide)

/-! ### Claims about the change monitor and the update lifecycle -/

theorem map_pair_eq_iff_forall₂ :
    ∀ (a b : List TodoTkItem),
      (a.map (fun i => (i.text, i.line)) = b.map (fun i => (i.text, i.line)))
        ↔ List.Forall₂ (fun x y : TodoTkItem =>
            x.text = y.text ∧ x.line = y.line) a b
  | [], [] => by simp
  | [], _ :: _ => by simp
  | _ :: _, [] => by simp
  | x :: xs, y :: ys => by
    simp [List.forall₂_cons, map_pair_eq_iff_forall₂ xs ys, Prod.ext_iff,
      and_assoc]

/-- C6: the change test of the monitor treats two item lists as unchanged
exactly when they are element-wise identical on (snippet text, line index)
pairs — absolute offsets are excluded — and a tick whose sample passes the
test schedules no refresh (the debounce slot is untouched). -/
theorem c6_offsets_excluded :
    (∀ a b : List TodoTkItem,
      itemsChanged a b = false ↔
        List.Forall₂ (fun x y : TodoTkItem =>
          x.text = y.text ∧ x.line = y.line) a b) ∧
    (∀ (st : ViewState) (v : Bool) (c : List Char) (now : Nat),
      itemsChanged (parseContent c) st.items = false →
      (pollTick st v c now).updateTimeout = st.updateTimeout) := by
  constructor
  · intro a b
    rw [itemsChanged, Bool.or_eq_false_iff]
    constructor
    · rintro ⟨-, h2⟩
      exact (map_pair_eq_iff_forall₂ a b).mp (by simpa using h2)
    · intro h
      have hm := (map_pair_eq_iff_forall₂ a b).mpr h
      have hlen : a.length = b.length := by
        have := congrArg List.length hm
        simpa using this
      constructor
      · simpa using hlen
      · simpa using hm
  · intro st v c now h
    unfold pollTick
    split
    · rfl
    · split
      · rfl
      · split
        · rfl
        · split
          · rw [if_neg (by simp [h])]
          · rfl

/-- C6 witness: equal (text, line) pairs with different offsets count as
unchanged. -/
theorem c6_offsets_excluded_witness :
    itemsChanged
      [⟨TodoTkType.TODO, "a".toList, 0, 0⟩]
      [⟨TodoTkType.TODO, "a".toList, 0, 5⟩] = false :=
  (c6_offsets_excluded.1 _ _).mpr
    (List.Forall₂.cons ⟨rfl, rfl⟩ List.Forall₂.nil)

/-- A state whose monitor polls file "A" while "A" is also the current
file. -/
def c7_stateA : ViewState :=
  { items := []
    currentFile := some "A".toList
    currentView := some ⟨"A".toList, []⟩
    pollInterval := some "A".toList
    updateTimeout := none
    rendered := .noItems }

/-- The freshly resolved document "B". -/
def c7_docB : MarkdownDoc := ⟨"B".toList, []⟩

/-- C7, evaluated at the failing input: with a monitor polling file "A", a
refresh that resolves document "B" leaves the old monitor for "A" running
(the restart condition of src/view.ts line 125 compares the new path
against `currentFile`, which line 119 just overwrote with that same new
path, so it can never detect a document switch) and starts none for "B";
the stale monitor then self-terminates on its next tick, leaving no
monitor at all. -/
theorem c7_monitor_not_restarted :
    (update c7_stateA (some c7_docB)).pollInterval = some "A".toList ∧
    (update c7_stateA (some c7_docB)).currentFile = some "B".toList ∧
    (pollTick (update c7_stateA (some c7_docB)) true [] 0).pollInterval
      = none := by decide

/-- A state whose monitor polls file "M". -/
def c8_state : ViewState :=
  { items := []
    currentFile := some "M".toList
    currentView := some ⟨"M".toList, []⟩
    pollInterval := some "M".toList
    updateTimeout := none
    rendered := .noItems }

/-- C8 counterexample: a refresh that resolves no document renders the
empty state and clears the tracker, but the running monitor is NOT stopped
as part of that refresh — its interval handle survives the call. -/
theorem c8_counterexample :
    (update c8_state none).rendered = Rendered.noFile ∧
    (update c8_state none).currentFile = none ∧
    (update c8_state none).pollInterval = some "M".toList := by decide

/-- C8 (amended): when no document resolves, the refresh is not an error:
it renders the explicit empty state and clears the tracker state, but it
leaves the poll interval untouched; the monitor instead self-terminates on
its next tick, because the cleared view reference fails the tick's
validity check. -/
theorem c8_no_document (st : ViewState) :
    (update st none).rendered = Rendered.noFile ∧
    (update st none).currentFile = none ∧
    (update st none).currentView = none ∧
    (update st none).pollInterval = st.pollInterval ∧
    (∀ (v : Bool) (c : List Char) (now : Nat),
      (pollTick (update st none) v c now).pollInterval = none) := by
  refine ⟨rfl, rfl, rfl, rfl, ?_⟩
  intro v c now
  rcases hpi : st.pollInterval with _ | tracked <;>
    simp [pollTick, update, hpi]

theorem countRefreshes_some :
    ∀ (ts : List Nat) (d : Nat),
      ts.Chain' (fun a b => b < a + debounceMs) →
      (∀ t, ts.head? = some t → t < d) →
      countRefreshes (some d) ts = 1
  | [], _, _, _ => rfl
  | t :: ts, d, hchain, hhead => by
    have ht : t < d := hhead t rfl
    rw [List.chain'_cons'] at hchain
    simp only [countRefreshes]
    rw [if_neg (by omega), Nat.zero_add]
    exact countRefreshes_some ts (t + debounceMs) hchain.2
      (fun u hu => hchain.1 u hu)

/-- C9: on a detected change the monitor always (re)schedules the single
debounce slot to fire `debounceMs = 200` ms later — replacing any pending
deadline (`clearTimeout` before `setTimeout`) rather than queuing a second
refresh — and a run of N ≥ 1 detections, each arriving within the debounce
window of the previous one, fires exactly one refresh. -/
theorem c9_debounce :
    debounceMs = 200 ∧
    (∀ (st : ViewState) (c : List Char) (now : Nat) (tracked : List Char)
        (mv : MarkdownDoc),
      st.pollInterval = some tracked →
      st.currentView = some mv →
      mv.path = tracked →
      st.currentFile = some tracked →
      itemsChanged (parseContent c) st.items = true →
      (pollTick st true c now).updateTimeout = some (now + debounceMs)) ∧
    (∀ ts : List Nat, ts ≠ [] →
      ts.Chain' (fun a b => b < a + debounceMs) →
      countRefreshes none ts = 1) := by
  refine ⟨rfl, ?_, ?_⟩
  · intro st c now tracked mv hpi hcv hpath hfile hch
    simp [pollTick, hpi, hcv, hpath, hfile, hch]
  · intro ts hne hchain
    cases ts with
    | nil => exact absurd rfl hne
    | cons t ts' =>
      rw [List.chain'_cons'] at hchain
      simp only [countRefreshes]
      rw [Nat.zero_add]
      exact countRefreshes_some ts' (t + debounceMs) hchain.2
        (fun u hu => hchain.1 u hu)

/-- A monitored state with a stale pending debounce deadline. -/
def c9_state : ViewState :=
  { items := []
    currentFile := some "A".toList
    currentView := some ⟨"A".toList, []⟩
    pollInterval := some "A".toList
    updateTimeout := some 57
    rendered := .noItems }

/-- C9 witness: a detection at time 1000 replaces the stale deadline 57 by
1200, and three detections at 0, 100, 150 fire exactly one refresh. -/
theorem c9_debounce_witness :
    (pollTick c9_state true "TK x".toList 1000).updateTimeout
      = some (1000 + debounceMs) ∧
    countRefreshes none [0, 100, 150] = 1 :=
  ⟨c9_debounce.2.1 c9_state "TK x".toList 1000 "A".toList ⟨"A".toList, []⟩
      rfl rfl rfl rfl (by decide),
    c9_debounce.2.2 [0, 100, 150] (by decide)
      (by simp [List.chain'_cons, debounceMs])⟩
